import Mathlib

/-!
# Verification of the tsrkit-types codec engine

Shallow embedding of the `tsrkit_types` Python codec library (integers,
bits, bytes, dictionary, struct) and proofs of the spec claims about it.

Buffers are modelled as `List Nat` of octets (each `< 256` where produced
by the code).  Python slices `buffer[o : o+k]` become
`(buffer.drop o).take k`, which matches Python's silent truncation of
out-of-range slices.  Fallible code (Python `raise`) returns
`Except String`.
-/

namespace Tsrkit

/-- Little-endian byte serialisation: embeds Python
`v.to_bytes(k, "little")` (the low `k` octets of `v`). -/
def toBytesLE (v : Nat) : Nat → List Nat
  | 0 => []
  | k + 1 => v % 256 :: toBytesLE (v / 256) k

/-- Embeds Python `int.from_bytes(bs, "little")` on a list of octets. -/
def fromBytesLE : List Nat → Nat
  | [] => 0
  | b :: bs => b + 256 * fromBytesLE bs

/-! ## Variable-length integers (`Int` with `byte_size = 0`, i.e. `Uint`)

From `src/tsrkit_types/integers.py`. -/

/-- Embeds `Int.l`: `math.floor(Decimal(x).ln() / (7 * Decimal(2).ln()))`,
i.e. `⌊log₂ x / 7⌋` under exact real arithmetic. -/
def intL (x : Nat) : Nat := Nat.log2 x / 7

/-- Embeds the range check of `Int.__new__` for the general unsigned
integer (`byte_size = 0`): `0 ≤ value ≤ 2^64 − 1`, packaging the decode
result as `Int.decode_from` does. -/
def uintNew (v size : Nat) : Except String (Nat × Nat) :=
  if v ≤ 2 ^ 64 - 1 then .ok (v, size) else .error "Int: Uint out of range"

/-- Embeds `Int.encode_size` for `byte_size = 0`. -/
def uintEncodeSize (v : Nat) : Except String Nat :=
  if v < 2 ^ 7 then .ok 1
  else if v < 2 ^ (7 * 9) then .ok (1 + intL v)
  else if v < 2 ^ 64 then .ok 9
  else .error "Value too large for encoding. General Int support up to 2**64 - 1"

/-- Embeds `Int.encode_into` for `byte_size = 0`, composed with the
`Codable.encode` convenience (spec §6: a fresh buffer of `encode_size`
octets written at offset 0); the result is the octet list written. -/
def uintEncodeBytes (v : Nat) : Except String (List Nat) :=
  if v < 2 ^ 7 then .ok [v]
  else if v < 2 ^ (7 * 8) then
    let l := intL v
    let prefixByte := 2 ^ 8 - 2 ^ (8 - l) + v / 2 ^ (l * 8)
    .ok (prefixByte :: toBytesLE (v % 2 ^ (l * 8)) l)
  else if v < 2 ^ 64 then
    .ok ((2 ^ 8 - 1) :: toBytesLE v 8)
  else .error "Value too large for encoding. General Int support up to 2**64 - 1"

/-- Embeds the decode-side length computation
`math.floor(8 - ln(256 - tag) / ln 2)` of `Int.decode_from`
(exact real arithmetic): `8 − ⌈log₂ (256 − tag)⌉`. -/
def uintDecodeL (tag : Nat) : Nat := 8 - Nat.clog 2 (2 ^ 8 - tag)

/-- Embeds `Int.decode_from` for `byte_size = 0` (unsigned). -/
def uintDecodeFrom (buffer : List Nat) (offset : Nat) : Except String (Nat × Nat) :=
  let tag := fromBytesLE ((buffer.drop offset).take 1)
  if tag < 2 ^ 7 then
    uintNew tag 1
  else if tag = 2 ^ 8 - 1 then
    if buffer.length - offset < 9 then
      .error "Buffer too small to decode 64-bit integer"
    else
      uintNew (fromBytesLE ((buffer.drop (offset + 1)).take 8)) 9
  else
    let l := uintDecodeL tag
    if buffer.length - offset < l + 1 then
      .error "Buffer too small to decode variable-length integer"
    else
      let alpha := tag + 2 ^ (8 - l) - 2 ^ 8
      let beta := fromBytesLE ((buffer.drop (offset + 1)).take l)
      uintNew (alpha * 2 ^ (l * 8) + beta) (l + 1)

/-! ## Fixed-width integers (`Int` with `byte_size > 0`) -/

/-- Embeds `Int.encode_size` for a fixed-size integer: the byte size. -/
def fixedEncodeSize (bs : Nat) : Nat := bs

/-- Embeds `Int.encode_into` + `encode` for fixed unsigned `U{8·bs}`
(`to_unsigned` is the identity for unsigned values). -/
def fixedUEncodeBytes (bs v : Nat) : List Nat := toBytesLE v bs

/-- Embeds `Int.decode_from` for fixed unsigned integers, including the
`cls.__new__` range check `0 ≤ v ≤ 2^(8·bs) − 1`.  Note the code slices
`buffer[offset : offset+byte_size]` without checking the buffer length. -/
def fixedUDecodeFrom (bs : Nat) (buffer : List Nat) (offset : Nat) :
    Except String (Nat × Nat) :=
  let u := fromBytesLE ((buffer.drop offset).take bs)
  if u ≤ 2 ^ (8 * bs) - 1 then .ok (u, bs) else .error "Int out of range"

/-- Embeds `Int.to_unsigned` for fixed signed integers. -/
def toUnsignedSigned (bs : Nat) (v : ℤ) : ℤ :=
  if v < 0 then v + 2 ^ (8 * bs) else v

/-- Embeds `Int.encode_into` + `encode` for fixed signed `I{8·bs}`. -/
def fixedIEncodeBytes (bs : Nat) (v : ℤ) : List Nat :=
  toBytesLE (toUnsignedSigned bs v).toNat bs

/-- Embeds `Int.decode_from` for fixed signed integers: read unsigned,
subtract `2^(8·bs)` when the sign bit is set, then the `cls.__new__`
range check `−2^(8·bs−1) ≤ v ≤ 2^(8·bs−1) − 1`. -/
def fixedIDecodeFrom (bs : Nat) (buffer : List Nat) (offset : Nat) :
    Except String (ℤ × Nat) :=
  let u := fromBytesLE ((buffer.drop offset).take bs)
  let sv : ℤ := if (2 : ℤ) ^ (8 * bs - 1) ≤ (u : ℤ) then (u : ℤ) - 2 ^ (8 * bs) else (u : ℤ)
  if -(2 ^ (8 * bs - 1)) ≤ sv ∧ sv ≤ 2 ^ (8 * bs - 1) - 1 then .ok (sv, bs)
  else .error "Int out of range"

/-- Spec's `bitlen(v)` for `v ≥ 1`. -/
def bitlen (v : Nat) : Nat := Nat.log2 v + 1

/-- Modelled from the spec (§4.1), for comparison with the code's
encoder: one octet `v` when `v < 2^7`; prefix
`P = (256 − 2^(8−ℓ)) + (v >> 8ℓ)` with `ℓ = ⌊(bitlen(v) − 1)/7⌋`
followed by the low `ℓ` octets of `v` little-endian when `2^7 ≤ v < 2^56`;
`0xFF` followed by the 8 octets of `v` little-endian when
`2^56 ≤ v < 2^64`. -/
def specVarintWire (v : Nat) : List Nat :=
  if v < 2 ^ 7 then [v]
  else if v < 2 ^ 56 then
    let l := (bitlen v - 1) / 7
    ((2 ^ 8 - 2 ^ (8 - l)) + v / 2 ^ (8 * l)) :: toBytesLE v l
  else (2 ^ 8 - 1) :: toBytesLE v 8

/-! ## Security limits (`src/tsrkit_types/constants.py`) -/

def MAX_DICTIONARY_SIZE : Nat := 1000000
def MAX_BYTEARRAY_SIZE : Nat := 100000000
def MAX_STRING_BYTES : Nat := 10000000
def MAX_BITS_LENGTH : Nat := 80000000

/-! ## Bit vectors (`src/tsrkit_types/bits.py`) -/

/-- The declared bit order of a `Bits` type (`_order`: `"msb"`/`"lsb"`). -/
inductive BitOrder where
  | msb
  | lsb
deriving DecidableEq

/-- One byte of `_pack_bits_to_bytes` output: the source's inner
`for j in range(8)` loop unrolled (`val |= 1 << (7 - j)` under `msb`,
`val |= 1 << j` under `lsb`, guarded by `idx < bit_len and bits[idx]`,
which `List.getD` captures). -/
def packedByte (bits : List Bool) (order : BitOrder) (i : Nat) : Nat :=
  match order with
  | .msb =>
    (if bits.getD (8 * i) false then 1 <<< 7 else 0) |||
    (if bits.getD (8 * i + 1) false then 1 <<< 6 else 0) |||
    (if bits.getD (8 * i + 2) false then 1 <<< 5 else 0) |||
    (if bits.getD (8 * i + 3) false then 1 <<< 4 else 0) |||
    (if bits.getD (8 * i + 4) false then 1 <<< 3 else 0) |||
    (if bits.getD (8 * i + 5) false then 1 <<< 2 else 0) |||
    (if bits.getD (8 * i + 6) false then 1 <<< 1 else 0) |||
    (if bits.getD (8 * i + 7) false then 1 <<< 0 else 0)
  | .lsb =>
    (if bits.getD (8 * i) false then 1 <<< 0 else 0) |||
    (if bits.getD (8 * i + 1) false then 1 <<< 1 else 0) |||
    (if bits.getD (8 * i + 2) false then 1 <<< 2 else 0) |||
    (if bits.getD (8 * i + 3) false then 1 <<< 3 else 0) |||
    (if bits.getD (8 * i + 4) false then 1 <<< 4 else 0) |||
    (if bits.getD (8 * i + 5) false then 1 <<< 5 else 0) |||
    (if bits.getD (8 * i + 6) false then 1 <<< 6 else 0) |||
    (if bits.getD (8 * i + 7) false then 1 <<< 7 else 0)

/-- Embeds `_pack_bits_to_bytes`: `⌈n/8⌉` octets, byte `i` packed from
bits `8i..8i+7`. -/
def packBitsToBytes (bits : List Bool) (order : BitOrder) : List Nat :=
  (List.range ((bits.length + 7) / 8)).map (packedByte bits order)

/-- Embeds `Bits.encode_into` + the `encode` convenience for a
`Bits[min,max,order]` type: a fixed-length type (`min = max > 0`) emits
just the packed octets after a length check; otherwise a varint bit-count
prefix precedes them. -/
def bitsEncodeBytes (minL maxL : Nat) (order : BitOrder) (bits : List Bool) :
    Except String (List Nat) :=
  if (minL = maxL ∧ 0 < minL) ∧ bits.length ≠ minL then
    .error "Bit sequence length mismatch"
  else if minL = maxL ∧ 0 < minL then
    .ok (packBitsToBytes bits order)
  else
    match uintEncodeBytes bits.length with
    | .error e => .error e
    | .ok pre => .ok (pre ++ packBitsToBytes bits order)

/-- Modelled from the spec: `Codable._check_buffer_size` lives in the
missing `itf/codable.py`; per spec §4.11/§7 it verifies that the
remaining buffer holds `size` octets at `offset` and fails with a
short-buffer error otherwise. -/
def checkBufferSize (buffer : List Nat) (size offset : Nat) : Except String Unit :=
  if buffer.length - offset < size then .error "Buffer too small" else .ok ()

/-- Unpacking one octet into 8 bits.  The `lsb` row embeds the source's
comprehension `[bool((byte >> i) & 1) for i in range(8)]`; the `msb`
row is modelled from the spec (§4.3) since the `_BYTE_TO_BITS_MSB`
table lives in the missing `bytes_common.py`. -/
def byteToBits (order : BitOrder) (b : Nat) : List Bool :=
  match order with
  | .msb => [b.testBit 7, b.testBit 6, b.testBit 5, b.testBit 4,
             b.testBit 3, b.testBit 2, b.testBit 1, b.testBit 0]
  | .lsb => [b.testBit 0, b.testBit 1, b.testBit 2, b.testBit 3,
             b.testBit 4, b.testBit 5, b.testBit 6, b.testBit 7]

/-- Embeds `Bits.decode_from` for a `Bits[min,max,order]` type.  Note:
no `MAX_BITS_LENGTH` comparison appears in the source. -/
def bitsDecodeFrom (minL maxL : Nat) (order : BitOrder) (buffer : List Nat)
    (offset : Nat) : Except String (List Bool × Nat) :=
  let step : Except String (Nat × Nat) :=
    if minL = maxL ∧ 0 < minL then .ok (minL, offset)
    else
      match uintDecodeFrom buffer offset with
      | .error e => .error e
      | .ok (l, size) => .ok (l, offset + size)
  match step with
  | .error e => .error e
  | .ok (len, off) =>
    if len = 0 then .ok ([], off - offset)
    else
      let byteCount := (len + 7) / 8
      match checkBufferSize buffer byteCount off with
      | .error e => .error e
      | .ok _ =>
        let view := (buffer.drop off).take byteCount
        .ok (((view.map (byteToBits order)).flatten).take len, off + byteCount - offset)

/-! ## JSON values and hex projection -/

/-- JSON scalars relevant to the claims (`None`, numbers, strings). -/
inductive JValue where
  | null
  | num (n : ℤ)
  | str (s : String)
deriving DecidableEq

/-- One lowercase hex digit (spec §6: JSON projection of byte kinds is
lowercase hex). -/
def hexDigit (c : Char) : Option Nat :=
  if '0' ≤ c ∧ c ≤ '9' then some (c.toNat - 48)
  else if 'a' ≤ c ∧ c ≤ 'f' then some (c.toNat - 87)
  else none

def hexPairsToBytes : List Char → Option (List Nat)
  | [] => some []
  | [_] => none
  | c1 :: c2 :: rest =>
    match hexDigit c1, hexDigit c2, hexPairsToBytes rest with
    | some hi, some lo, some bs => some ((16 * hi + lo) :: bs)
    | _, _, _ => none

/-- Modelled from the spec: `Bytes.from_json` lives in the missing
`bytes_common.py` (`BytesMixin`); per the spec the JSON form is
lowercase hex with an optional `0x` prefix accepted on input. -/
def bytesFromJsonHex (s : String) : Except String (List Nat) :=
  let cs := if s.toList.take 2 = ['0', 'x'] then s.toList.drop 2 else s.toList
  match hexPairsToBytes cs with
  | some bs => .ok bs
  | none => .error "non-hexadecimal number found in fromhex() arg"

/-- Modelled from the spec: `to_bits` of the missing `bytes_common.py`
unpacks each octet into 8 bits in the declared order (§4.3). -/
def bytesToBits (order : BitOrder) (bs : List Nat) : List Bool :=
  (bs.map (byteToBits order)).flatten

/-- Embeds `Bits.from_json` (src `bits.py` lines 71-79): decode the hex
string, unpack to bits, and for a fixed-length type trim to
`_min_length` bits before construction; construction validation
(`_validate_self`, modelled from the spec's length bounds) then checks
`min ≤ len ≤ max`. -/
def bitsFromJson (minL maxL : Nat) (order : BitOrder) (s : String) :
    Except String (List Bool) :=
  match bytesFromJsonHex s with
  | .error e => .error e
  | .ok bs =>
    let bits := bytesToBits order bs
    let bits' := if minL = maxL ∧ 0 < minL then bits.take minL else bits
    if minL ≤ bits'.length ∧ bits'.length ≤ maxL then .ok bits'
    else .error "length out of bounds"

/-! ## Bytes with the global decode cache (`src/tsrkit_types/bytes.py`) -/

/-- Cache key of `Bytes.decode_from`: the class's `_length`, the first
`min(64, len(buffer) − offset)` octets from `offset`, and the offset.
(The class itself is also part of the Python key; we model a single
class.) -/
abbrev BytesCacheKey := Option Nat × List Nat × Nat

/-- The `_BYTES_DECODE_CACHE` dict: insertion-ordered association list. -/
abbrev BytesCache := List (BytesCacheKey × (List Nat × Nat))

def cacheLookup (cache : BytesCache) (k : BytesCacheKey) : Option (List Nat × Nat) :=
  match cache with
  | [] => none
  | (k', r) :: rest => if k' = k then some r else cacheLookup rest k

/-- Embeds `Bytes.decode_from` (variable form when `length? = none`,
fixed `Bytes[L]` when `length? = some L`), threading the global cache
explicitly.  Mirrors the 64-octet cache-key window, the cache-hit early
return, the `Uint` length prefix decode, the buffer check, and the
size-capped insertion with 25% eviction.  Note: no `MAX_BYTEARRAY_SIZE`
comparison appears in the source. -/
def bytesDecodeFrom (length? : Option Nat) (cache : BytesCache)
    (buffer : List Nat) (offset : Nat) :
    Except String (List Nat × Nat) × BytesCache :=
  let ckey : BytesCacheKey :=
    (length?, (buffer.drop offset).take (min 64 (buffer.length - offset)), offset)
  match cacheLookup cache ckey with
  | some res => (.ok res, cache)
  | none =>
    let step : Except String (Nat × Nat) :=
      match length? with
      | some l => .ok (l, offset)
      | none =>
        match uintDecodeFrom buffer offset with
        | .error e => .error e
        | .ok (l, inc) => .ok (l, offset + inc)
    match step with
    | .error e => (.error e, cache)
    | .ok (len, cur) =>
      if ((buffer.drop cur).take len).length < len then
        (.error "Insufficient buffer", cache)
      else
        let res := ((buffer.drop cur).take len, cur + len - offset)
        let cache' :=
          if cache.length < 1000 then cache ++ [(ckey, res)]
          else cache.drop 250 ++ [(ckey, res)]
        (.ok res, cache')

/-! ## Dictionary (`src/tsrkit_types/dictionary.py`)

Keys and values are modelled as `Nat` (the supplied integer key kinds);
the per-kind encoders/decoders are passed in, as the generic class
dispatches to `cls._key_type` / `cls._value_type`. -/

/-- Python `dict` assignment on an insertion-ordered association list:
overwrite in place if the key exists, else append. -/
def assocSet (entries : List (Nat × Nat)) (k v : Nat) : List (Nat × Nat) :=
  match entries with
  | [] => [(k, v)]
  | (k', v') :: rest =>
    if k' = k then (k, v) :: rest else (k', v') :: assocSet rest k v

/-- Python `self[k]` on the entry list. -/
def dictLookup (entries : List (Nat × Nat)) (k : Nat) : Option Nat :=
  match entries with
  | [] => none
  | (k', v) :: rest => if k' = k then some v else dictLookup rest k

/-- The mutable state of one `Dictionary` value: its entries, the
`_sorted_keys_cache`, and the `_dirty` flag. -/
structure DictState where
  entries : List (Nat × Nat)
  sortedKeysCache : Option (List Nat)
  dirty : Bool
deriving DecidableEq

/-- Embeds `Dictionary.__init__(initial)`: empty dict, cache `None`,
dirty `True`, then `update(initial)` (which leaves cache `None` and
dirty `True`). -/
def dictOfEntries (entries : List (Nat × Nat)) : DictState :=
  { entries := entries, sortedKeysCache := none, dirty := true }

/-- Embeds `Dictionary.__setitem__`: assign, mark dirty, drop cache. -/
def dictSetItem (d : DictState) (k v : Nat) : DictState :=
  { entries := assocSet d.entries k v, sortedKeysCache := none, dirty := true }

/-- Embeds `del d[k]`.  `Dictionary` does **not** override
`dict.__delitem__`, so the entry is removed while `_dirty` and
`_sorted_keys_cache` are left untouched. -/
def dictDelItem (d : DictState) (k : Nat) : DictState :=
  { d with entries := d.entries.filter (fun kv => kv.1 ≠ k) }

/-- Embeds `[(k, self[k]) for k in keys]` with the `KeyError` a missing
key raises. -/
def collectItems (entries : List (Nat × Nat)) : List Nat → Option (List (Nat × Nat))
  | [] => some []
  | k :: ks =>
    match dictLookup entries k, collectItems entries ks with
    | some v, some rest => some ((k, v) :: rest)
    | _, _ => none

/-- Embeds `Dictionary._get_sorted_items`: when dirty or uncached, sort
the keys by natural order (`sorted(self.keys())`, which succeeds for the
integer keys modelled here — the encoded-bytes fallback is only reached
on `TypeError`) and cache them; then look each key up.  A stale cached
key raises `KeyError`. -/
def dictGetSortedItems (d : DictState) :
    Except String (List (Nat × Nat) × DictState) :=
  let keys :=
    if d.dirty ∨ d.sortedKeysCache = none then
      (d.entries.map Prod.fst).insertionSort (· ≤ ·)
    else d.sortedKeysCache.getD []
  let d' :=
    if d.dirty ∨ d.sortedKeysCache = none then
      { d with sortedKeysCache := some keys, dirty := false }
    else d
  match collectItems d.entries keys with
  | some items => .ok (items, d')
  | none => .error "KeyError"

/-- Embeds `Dictionary.encode_into` + the `encode` convenience: varint
entry count, then `E(k) ∥ E(v)` per sorted item. -/
def dictEncodeBytes (encK encV : Nat → List Nat) (d : DictState) :
    Except String (List Nat × DictState) :=
  match uintEncodeBytes d.entries.length with
  | .error e => .error e
  | .ok pre =>
    match dictGetSortedItems d with
    | .error e => .error e
    | .ok (items, d') =>
      .ok (pre ++ (items.map (fun kv => encK kv.1 ++ encV kv.2)).flatten, d')

/-- Embeds `prev_key is not None and key <= prev_key`. -/
def keyOrderViolated (prev : Option Nat) (k : Nat) : Bool :=
  match prev with
  | some p => k ≤ p
  | none => false

/-- The decode loop of `Dictionary.decode_from`: `n` iterations of
key decode, order check, value decode, `res[key] = value`. -/
def dictDecodeLoop (decK decV : List Nat → Nat → Except String (Nat × Nat))
    (buffer : List Nat) :
    Nat → Nat → Option Nat → List (Nat × Nat) →
    Except String (List (Nat × Nat) × Nat)
  | 0, cur, _, acc => .ok (acc, cur)
  | n + 1, cur, prev, acc =>
    match decK buffer cur with
    | .error e => .error e
    | .ok (k, szK) =>
      if keyOrderViolated prev k then
        .error "Dictionary keys must be in strictly ascending order per JAM spec"
      else
        match decV buffer (cur + szK) with
        | .error e => .error e
        | .ok (v, szV) =>
          dictDecodeLoop decK decV buffer n (cur + szK + szV) (some k) (assocSet acc k v)

/-- Embeds `Dictionary.decode_from`: varint count, `MAX_DICTIONARY_SIZE`
guard, then the decode loop. -/
def dictDecodeFrom (decK decV : List Nat → Nat → Except String (Nat × Nat))
    (buffer : List Nat) (offset : Nat) :
    Except String (List (Nat × Nat) × Nat) :=
  match uintDecodeFrom buffer offset with
  | .error e => .error e
  | .ok (n, sz) =>
    if n > MAX_DICTIONARY_SIZE then .error "Dictionary size exceeds maximum"
    else
      match dictDecodeLoop decK decV buffer n (offset + sz) none [] with
      | .error e => .error e
      | .ok (entries, cur) => .ok (entries, cur - offset)

/-! ## Records (`src/tsrkit_types/struct.py`) -/

/-- Field values of the two field kinds exercised by the claims. -/
inductive FVal where
  | uvl (n : Nat)
  | svl (s : String)
deriving DecidableEq

/-- Field types: `Uint` and `String`. -/
inductive FType where
  | uintTy
  | stringTy
deriving DecidableEq

/-- Python `int(x)` on a JSON scalar: `None` raises `TypeError`,
numbers pass through, strings parse as decimal. -/
def parseDecDigits : List Char → Nat → Option Nat
  | [], acc => some acc
  | c :: rest, acc =>
    if '0' ≤ c ∧ c ≤ '9' then parseDecDigits rest (acc * 10 + (c.toNat - 48))
    else none

def pyInt : JValue → Except String ℤ
  | .null => .error "TypeError: int() argument cannot be NoneType"
  | .num n => .ok n
  | .str s =>
    match s.toList with
    | [] => .error "invalid literal for int()"
    | '-' :: rest =>
      match rest, parseDecDigits rest 0 with
      | _ :: _, some n => .ok (-(n : ℤ))
      | _, _ => .error "invalid literal for int()"
    | cs =>
      match parseDecDigits cs 0 with
      | some n => .ok (n : ℤ)
      | none => .error "invalid literal for int()"

/-- Python `str(x)` on a JSON scalar: `str(None)` is `"None"`. -/
def pyStr : JValue → String
  | .null => "None"
  | .num n => toString n
  | .str s => s

/-- Embeds `Int.from_json` for `Uint`: `cls(int(json_str))` with the
`__new__` range check. -/
def uintFromJson (j : JValue) : Except String FVal :=
  match pyInt j with
  | .error e => .error e
  | .ok n =>
    if 0 ≤ n ∧ n ≤ 2 ^ 64 - 1 then .ok (.uvl n.toNat)
    else .error "Int: Uint out of range"

/-- Embeds `String.from_json`: `cls(data)`, i.e. Python `str` coercion
(so `None` silently becomes the text `"None"`). -/
def stringFromJson (j : JValue) : Except String FVal :=
  .ok (.svl (pyStr j))

def ftypeFromJson : FType → JValue → Except String FVal
  | .uintTy, j => uintFromJson j
  | .stringTy, j => stringFromJson j

/-- One declared record field: name, optional JSON alias
(`field.metadata["name"]`), optional declared default
(`field.metadata["default"]`), and type. -/
structure FieldSpec where
  name : String
  jsonAlias : Option String
  default? : Option FVal
  ftype : FType

/-- `field.metadata.get("name", field.name)`. -/
def fieldKey (f : FieldSpec) : String := f.jsonAlias.getD f.name

/-- Python `data.get(k)` on a JSON object (first match). -/
def jsonGet (data : List (String × JValue)) (k : String) : Option JValue :=
  match data with
  | [] => none
  | (k', v) :: rest => if k' = k then some v else jsonGet rest k

/-- Embeds the `from_json` classmethod installed by the `structure`
decorator: for each declared field take `v = data.get(alias-or-name)`
(absent keys give Python `None`, i.e. JSON null here); when `v is None`
and a default is declared use the default, otherwise apply the field
type's `from_json` to `v`.  The result is the `cls(**init_data)`
field-value assignment in declaration order. -/
def structFromJson (flds : List FieldSpec) (data : List (String × JValue)) :
    Except String (List (String × FVal)) :=
  match flds with
  | [] => .ok []
  | f :: rest =>
    let v := (jsonGet data (fieldKey f)).getD .null
    if h : v = .null ∧ f.default?.isSome then
      match structFromJson rest data with
      | .error e => .error e
      | .ok r => .ok ((f.name, f.default?.get h.2) :: r)
    else
      match ftypeFromJson f.ftype v with
      | .error e => .error e
      | .ok fv =>
        match structFromJson rest data with
        | .error e => .error e
        | .ok r => .ok ((f.name, fv) :: r)

/-- Lexicographic comparison of octet strings (Python `bytes <`),
the "encoded-bytes comparison" of the spec's mapping section. -/
def bytesLexLt : List Nat → List Nat → Bool
  | [], [] => false
  | [], _ :: _ => true
  | _ :: _, [] => false
  | a :: as, b :: bs => if a < b then true else if a = b then bytesLexLt as bs else false

/-! ## Byte-serialisation lemmas -/

theorem length_toBytesLE (v k : Nat) : (toBytesLE v k).length = k := by
  induction k generalizing v with
  | zero => rfl
  | succ k ih => simp [toBytesLE, ih]

theorem fromBytesLE_toBytesLE (v k : Nat) :
    fromBytesLE (toBytesLE v k) = v % 256 ^ k := by
  induction k generalizing v with
  | zero => simp [toBytesLE, fromBytesLE, Nat.mod_one]
  | succ k ih =>
    simp only [toBytesLE, fromBytesLE, ih]
    rw [Nat.pow_succ, Nat.mul_comm (256 ^ k) 256, Nat.mod_mul]

theorem toBytesLE_mod (v k : Nat) :
    toBytesLE (v % 256 ^ k) k = toBytesLE v k := by
  induction k generalizing v with
  | zero => rfl
  | succ k ih =>
    have h1 : v % 256 ^ (k + 1) % 256 = v % 256 :=
      Nat.mod_mod_of_dvd v ⟨256 ^ k, by rw [Nat.pow_succ]; ring⟩
    have h2 : v % 256 ^ (k + 1) / 256 = v / 256 % 256 ^ k := by
      rw [Nat.pow_succ, Nat.mul_comm, Nat.mod_mul_right_div_self]
    simp only [toBytesLE, h1, h2, ih]

theorem pow2_mul8 (k : Nat) : (2 : Nat) ^ (8 * k) = 256 ^ k := by
  rw [Nat.pow_mul]

/-! ## Round-trip lemmas for the varint -/

theorem intL_bounds (v : Nat) (h1 : 2 ^ 7 ≤ v) (h2 : v < 2 ^ (7 * 8)) :
    1 ≤ intL v ∧ intL v ≤ 7 ∧ 2 ^ (7 * intL v) ≤ v ∧ v < 2 ^ (7 * intL v + 7) := by
  have hv0 : v ≠ 0 := by omega
  have hlo : 2 ^ Nat.log2 v ≤ v := Nat.log2_self_le hv0
  have hhi : v < 2 ^ (Nat.log2 v + 1) := Nat.lt_log2_self
  have h7 : 7 ≤ Nat.log2 v := by
    by_contra hc
    have : 2 ^ (Nat.log2 v + 1) ≤ 2 ^ 7 := Nat.pow_le_pow_right (by norm_num) (by omega)
    omega
  have h55 : Nat.log2 v ≤ 55 := by
    by_contra hc
    have : 2 ^ (7 * 8) ≤ 2 ^ Nat.log2 v := Nat.pow_le_pow_right (by norm_num) (by omega)
    omega
  refine ⟨Nat.le_div_iff_mul_le (by norm_num) |>.2 (by omega), by
      unfold intL; omega, ?_, ?_⟩
  · calc 2 ^ (7 * intL v) ≤ 2 ^ Nat.log2 v := by
          apply Nat.pow_le_pow_right (by norm_num)
          unfold intL; omega
      _ ≤ v := hlo
  · have : Nat.log2 v + 1 ≤ 7 * intL v + 7 := by unfold intL; omega
    calc v < 2 ^ (Nat.log2 v + 1) := hhi
      _ ≤ 2 ^ (7 * intL v + 7) := Nat.pow_le_pow_right (by norm_num) this

theorem uintDecodeL_prefix (l q : Nat) (hl1 : 1 ≤ l) (hl7 : l ≤ 7)
    (hq : q < 2 ^ (7 - l)) :
    uintDecodeL (2 ^ 8 - 2 ^ (8 - l) + q) = l := by
  have hsucc : 2 ^ (8 - l) = 2 * 2 ^ (7 - l) := by
    have : 8 - l = (7 - l) + 1 := by omega
    rw [this, Nat.pow_succ]; ring
  have hle : 2 ^ (7 - l) ≤ 2 ^ 6 := Nat.pow_le_pow_right (by norm_num) (by omega)
  have h1 : 2 ^ (7 - l) ≥ 1 := Nat.one_le_two_pow
  have hm : 2 ^ 8 - (2 ^ 8 - 2 ^ (8 - l) + q) = 2 ^ (8 - l) - q := by omega
  unfold uintDecodeL
  rw [hm]
  have hclog : Nat.clog 2 (2 ^ (8 - l) - q) = 8 - l := by
    have hub : Nat.clog 2 (2 ^ (8 - l) - q) ≤ 8 - l :=
      (Nat.le_pow_iff_clog_le (by norm_num)).1 (by omega)
    have hlb : 7 - l < Nat.clog 2 (2 ^ (8 - l) - q) :=
      (Nat.pow_lt_iff_lt_clog (by norm_num)).1 (by omega)
    omega
  rw [hclog]; omega

/-- Normal form of `uintDecodeFrom` on a non-empty buffer at offset 0. -/
theorem uintDecodeFrom_cons (t : Nat) (xs : List Nat) :
    uintDecodeFrom (t :: xs) 0 =
      if t < 2 ^ 7 then uintNew t 1
      else if t = 2 ^ 8 - 1 then
        if xs.length + 1 < 9 then .error "Buffer too small to decode 64-bit integer"
        else uintNew (fromBytesLE (xs.take 8)) 9
      else
        if xs.length + 1 < uintDecodeL t + 1 then
          .error "Buffer too small to decode variable-length integer"
        else
          uintNew ((t + 2 ^ (8 - uintDecodeL t) - 2 ^ 8) * 2 ^ (uintDecodeL t * 8) +
            fromBytesLE (xs.take (uintDecodeL t))) (uintDecodeL t + 1) := by
  simp [uintDecodeFrom, fromBytesLE, Nat.add_comm]

/-- Decoding a middle-branch varint frame with abstract prefix data:
`l` payload octets after prefix `(256 − 2^(8−l)) + q`. -/
theorem uint_mid_decode (l q r : Nat) (rest : List Nat) (hl1 : 1 ≤ l) (hl7 : l ≤ 7)
    (hq : q < 2 ^ (7 - l)) (hr : r < 2 ^ (l * 8)) :
    uintDecodeFrom ((2 ^ 8 - 2 ^ (8 - l) + q) :: (toBytesLE r l ++ rest)) 0 =
      uintNew (q * 2 ^ (l * 8) + r) (l + 1) := by
  have hsucc : 2 ^ (8 - l) = 2 * 2 ^ (7 - l) := by
    have h8 : 8 - l = (7 - l) + 1 := by omega
    rw [h8, Nat.pow_succ]; ring
  have hle : 2 ^ (7 - l) ≤ 2 ^ 6 := Nat.pow_le_pow_right (by norm_num) (by omega)
  have hone : (1 : Nat) ≤ 2 ^ (7 - l) := Nat.one_le_two_pow
  have hdl : uintDecodeL (2 ^ 8 - 2 ^ (8 - l) + q) = l := uintDecodeL_prefix l q hl1 hl7 hq
  have hlen : (toBytesLE r l).length = l := length_toBytesLE _ _
  rw [uintDecodeFrom_cons, hdl,
    if_neg (by omega), if_neg (by omega),
    if_neg (by rw [List.length_append, hlen]; omega),
    List.take_left' hlen]
  have hbeta : fromBytesLE (toBytesLE r l) = r := by
    rw [fromBytesLE_toBytesLE]
    apply Nat.mod_eq_of_lt
    rwa [← pow2_mul8, Nat.mul_comm 8 l]
  have halpha : 2 ^ 8 - 2 ^ (8 - l) + q + 2 ^ (8 - l) - 2 ^ 8 = q := by omega
  rw [hbeta, halpha]

/-- Core varint round-trip: decoding the encoding (with any suffix
appended) returns the value and the encoded length. -/
theorem uint_roundtrip (v : Nat) (hv : v < 2 ^ 64) (rest : List Nat) :
    ∃ bs, uintEncodeBytes v = .ok bs ∧
      uintDecodeFrom (bs ++ rest) 0 = .ok (v, bs.length) ∧
      uintEncodeSize v = .ok bs.length := by
  by_cases hsmall : v < 2 ^ 7
  · refine ⟨[v], ?_, ?_, ?_⟩
    · simp only [uintEncodeBytes]; rw [if_pos hsmall]
    · rw [List.cons_append, List.nil_append, uintDecodeFrom_cons, if_pos hsmall]
      simp only [uintNew]
      rw [if_pos (by omega)]
      rfl
    · simp only [uintEncodeSize]; rw [if_pos hsmall]; rfl
  · by_cases hmid : v < 2 ^ (7 * 8)
    · -- middle branch: prefix byte + intL v payload octets
      obtain ⟨hl1, hl7, hvlo, hvhi⟩ := intL_bounds v (by omega) hmid
      have hq : v / 2 ^ (intL v * 8) < 2 ^ (7 - intL v) := by
        rw [Nat.div_lt_iff_lt_mul (by positivity)]
        calc v < 2 ^ (7 * intL v + 7) := hvhi
          _ = 2 ^ (7 - intL v) * 2 ^ (intL v * 8) := by
              rw [← Nat.pow_add]; congr 1; omega
      have hr : v % 2 ^ (intL v * 8) < 2 ^ (intL v * 8) :=
        Nat.mod_lt _ (by positivity)
      refine ⟨(2 ^ 8 - 2 ^ (8 - intL v) + v / 2 ^ (intL v * 8)) ::
          toBytesLE (v % 2 ^ (intL v * 8)) (intL v), ?_, ?_, ?_⟩
      · simp only [uintEncodeBytes]
        rw [if_neg (by omega), if_pos hmid]
      · rw [List.cons_append,
          uint_mid_decode (intL v) (v / 2 ^ (intL v * 8)) (v % 2 ^ (intL v * 8)) rest
            hl1 hl7 hq hr]
        have hval : v / 2 ^ (intL v * 8) * 2 ^ (intL v * 8) + v % 2 ^ (intL v * 8) = v := by
          rw [Nat.mul_comm]
          exact Nat.div_add_mod v (2 ^ (intL v * 8))
        rw [hval]
        simp only [uintNew]
        rw [if_pos (by omega)]
        simp [length_toBytesLE]
      · simp only [uintEncodeSize]
        have h79 : v < 2 ^ (7 * 9) := by
          calc v < 2 ^ (7 * 8) := hmid
            _ ≤ 2 ^ (7 * 9) := Nat.pow_le_pow_right (by norm_num) (by omega)
        rw [if_neg (by omega), if_pos h79]
        simp only [List.length_cons, length_toBytesLE]
        rw [Nat.add_comm 1 (intL v)]
    · -- high branch: 0xFF marker + 8 octets
      refine ⟨(2 ^ 8 - 1) :: toBytesLE v 8, ?_, ?_, ?_⟩
      · simp only [uintEncodeBytes]
        rw [if_neg (by omega), if_neg (by omega), if_pos hv]
      · have hlen : (toBytesLE v 8).length = 8 := length_toBytesLE _ _
        rw [List.cons_append, uintDecodeFrom_cons,
          if_neg (by omega), if_pos rfl,
          if_neg (by rw [List.length_append, hlen]; omega),
          List.take_left' hlen]
        have hval : fromBytesLE (toBytesLE v 8) = v := by
          rw [fromBytesLE_toBytesLE]
          apply Nat.mod_eq_of_lt
          calc v < 2 ^ 64 := hv
            _ = 256 ^ 8 := by norm_num
        rw [hval]
        simp only [uintNew]
        rw [if_pos (by omega)]
        simp [hlen]
      · simp only [uintEncodeSize]
        rw [if_neg (by omega)]
        by_cases h63 : v < 2 ^ (7 * 9)
        · rw [if_pos h63]
          have hv0 : v ≠ 0 := by omega
          have h56 : 56 ≤ Nat.log2 v := by
            by_contra hc
            have hpow : 2 ^ (Nat.log2 v + 1) ≤ 2 ^ 56 :=
              Nat.pow_le_pow_right (by norm_num) (by omega)
            have hlt := Nat.lt_log2_self (n := v)
            have h2 : (2 : Nat) ^ (7 * 8) = 2 ^ 56 := by norm_num
            omega
          have h62 : Nat.log2 v ≤ 62 := by
            by_contra hc
            have hpow : 2 ^ (7 * 9) ≤ 2 ^ Nat.log2 v :=
              Nat.pow_le_pow_right (by norm_num) (by omega)
            have hself := Nat.log2_self_le hv0
            omega
          have hL8 : intL v = 8 := by unfold intL; omega
          simp only [hL8, List.length_cons, length_toBytesLE]
        · rw [if_neg h63, if_pos hv]
          simp [length_toBytesLE]

/-! ## Round-trip lemmas for fixed-width integers -/

theorem fixedU_roundtrip (bs v : Nat) (hv : v < 2 ^ (8 * bs)) (rest : List Nat) :
    fixedUDecodeFrom bs (fixedUEncodeBytes bs v ++ rest) 0 = .ok (v, bs) ∧
    (fixedUEncodeBytes bs v).length = bs := by
  have hlen : (fixedUEncodeBytes bs v).length = bs := length_toBytesLE _ _
  refine ⟨?_, hlen⟩
  simp only [fixedUDecodeFrom, List.drop_zero, List.take_left' hlen]
  have hread : fromBytesLE (toBytesLE v bs) = v := by
    rw [fromBytesLE_toBytesLE]
    apply Nat.mod_eq_of_lt
    rwa [← pow2_mul8]
  unfold fixedUEncodeBytes
  rw [hread, if_pos (by omega)]

theorem fixedI_roundtrip (bs : Nat) (v : ℤ) (hbs : 1 ≤ bs)
    (hlo : -(2 ^ (8 * bs - 1)) ≤ v) (hhi : v ≤ 2 ^ (8 * bs - 1) - 1) (rest : List Nat) :
    fixedIDecodeFrom bs (fixedIEncodeBytes bs v ++ rest) 0 = .ok (v, bs) ∧
    (fixedIEncodeBytes bs v).length = bs := by
  have hpow : (2 : ℤ) ^ (8 * bs - 1) * 2 = 2 ^ (8 * bs) := by
    rw [← pow_succ]; congr 1; omega
  have hpos : (0 : ℤ) < 2 ^ (8 * bs - 1) := by positivity
  have hub : 0 ≤ toUnsignedSigned bs v ∧ toUnsignedSigned bs v < 2 ^ (8 * bs) := by
    unfold toUnsignedSigned
    split <;> omega
  have hcastu : ((toUnsignedSigned bs v).toNat : ℤ) = toUnsignedSigned bs v :=
    Int.toNat_of_nonneg hub.1
  have hult : (toUnsignedSigned bs v).toNat < 2 ^ (8 * bs) := by
    have : ((2 : ℤ) ^ (8 * bs)) = ((2 ^ (8 * bs) : Nat) : ℤ) := by push_cast; ring
    omega
  have hlen : (fixedIEncodeBytes bs v).length = bs := length_toBytesLE _ _
  refine ⟨?_, hlen⟩
  simp only [fixedIDecodeFrom, List.drop_zero, List.take_left' hlen]
  unfold fixedIEncodeBytes
  have hread : fromBytesLE (toBytesLE (toUnsignedSigned bs v).toNat bs) =
      (toUnsignedSigned bs v).toNat := by
    rw [fromBytesLE_toBytesLE]
    apply Nat.mod_eq_of_lt
    rwa [← pow2_mul8]
  rw [hread]
  by_cases hneg : v < 0
  · have huval : toUnsignedSigned bs v = v + 2 ^ (8 * bs) := by
      unfold toUnsignedSigned; rw [if_pos hneg]
    have hcond : (2 : ℤ) ^ (8 * bs - 1) ≤ ((toUnsignedSigned bs v).toNat : ℤ) := by
      rw [hcastu, huval]; omega
    rw [if_pos hcond]
    have hval : ((toUnsignedSigned bs v).toNat : ℤ) - 2 ^ (8 * bs) = v := by
      rw [hcastu, huval]; ring
    rw [hval, if_pos ⟨hlo, hhi⟩]
  · have huval : toUnsignedSigned bs v = v := by
      unfold toUnsignedSigned; rw [if_neg hneg]
    have hcond : ¬ ((2 : ℤ) ^ (8 * bs - 1) ≤ ((toUnsignedSigned bs v).toNat : ℤ)) := by
      rw [hcastu, huval]; omega
    rw [if_neg hcond, hcastu, huval, if_pos ⟨hlo, hhi⟩]

/-! ## Claim C1: encode/decode round-trip for all integer kinds -/

/-- **C1.** For every integer value `v` of the kinds `Uint`
(`0 ≤ v < 2^64`), `U{8·n}` (within `[0, 2^(8n))`) and `I{8·n}` (within
`[−2^(8n−1), 2^(8n−1))`, covering `U8/…/U64`, `I8/…/I64`),
`decode_from(encode(v), 0)` returns exactly `(v, encode_size(v))`, and
`encode_size(v)` equals `len(encode(v))`. -/
theorem C1_integer_roundtrip :
    (∀ v : Nat, v < 2 ^ 64 →
      ∃ bs, uintEncodeBytes v = .ok bs ∧
        uintDecodeFrom bs 0 = .ok (v, bs.length) ∧
        uintEncodeSize v = .ok bs.length) ∧
    (∀ n v : Nat, v < 2 ^ (8 * n) →
      fixedUDecodeFrom n (fixedUEncodeBytes n v) 0 = .ok (v, fixedEncodeSize n) ∧
      (fixedUEncodeBytes n v).length = fixedEncodeSize n) ∧
    (∀ n : Nat, ∀ v : ℤ, 1 ≤ n → -(2 ^ (8 * n - 1)) ≤ v → v ≤ 2 ^ (8 * n - 1) - 1 →
      fixedIDecodeFrom n (fixedIEncodeBytes n v) 0 = .ok (v, fixedEncodeSize n) ∧
      (fixedIEncodeBytes n v).length = fixedEncodeSize n) := by
  refine ⟨?_, ?_, ?_⟩
  · intro v hv
    obtain ⟨bs, henc, hdec, hsz⟩ := uint_roundtrip v hv []
    rw [List.append_nil] at hdec
    exact ⟨bs, henc, hdec, hsz⟩
  · intro n v hv
    have := fixedU_roundtrip n v hv []
    rwa [List.append_nil] at this
  · intro n v hn hlo hhi
    have := fixedI_roundtrip n v hn hlo hhi []
    rwa [List.append_nil] at this

/-- Witness for C1 at `Uint 300`, `U32 0x12345678` and `I8 (−10)`. -/
theorem C1_integer_roundtrip_witness :
    (∃ bs, uintEncodeBytes 300 = .ok bs ∧
      uintDecodeFrom bs 0 = .ok (300, bs.length) ∧
      uintEncodeSize 300 = .ok bs.length) ∧
    fixedUDecodeFrom 4 (fixedUEncodeBytes 4 0x12345678) 0 = .ok (0x12345678, fixedEncodeSize 4) ∧
    fixedIDecodeFrom 1 (fixedIEncodeBytes 1 (-10)) 0 = .ok (-10, fixedEncodeSize 1) :=
  ⟨C1_integer_roundtrip.1 300 (by decide),
   (C1_integer_roundtrip.2.1 4 0x12345678 (by decide)).1,
   (C1_integer_roundtrip.2.2 1 (-10) (by decide) (by decide) (by decide)).1⟩

/-! ## Claim C2: the varint wire format -/

/-- **C2.** The `Uint` encoder emits exactly the specified wire format,
and in particular `encode(127) = 7f` and `encode(128) = 80 80`. -/
theorem C2_varint_wire_format :
    (∀ v : Nat, v < 2 ^ 64 → uintEncodeBytes v = .ok (specVarintWire v)) ∧
    uintEncodeBytes 127 = .ok [0x7f] ∧
    uintEncodeBytes 128 = .ok [0x80, 0x80] := by
  refine ⟨?_, rfl, by norm_num [uintEncodeBytes, intL, Nat.log2, toBytesLE]⟩
  intro v hv
  by_cases hsmall : v < 2 ^ 7
  · simp only [uintEncodeBytes, specVarintWire]
    rw [if_pos hsmall, if_pos hsmall]
  · by_cases hmid : v < 2 ^ (7 * 8)
    · have hmid' : v < 2 ^ 56 := by
        have : (2 : Nat) ^ (7 * 8) = 2 ^ 56 := by norm_num
        omega
      simp only [uintEncodeBytes, specVarintWire]
      rw [if_neg hsmall, if_neg hsmall, if_pos hmid, if_pos hmid']
      have hl : (bitlen v - 1) / 7 = intL v := by
        unfold bitlen intL
        omega
      have hmod : toBytesLE (v % 2 ^ (intL v * 8)) (intL v) = toBytesLE v (intL v) := by
        rw [Nat.mul_comm (intL v) 8, pow2_mul8, toBytesLE_mod]
      rw [hl, hmod, Nat.mul_comm 8 (intL v)]
    · have hmid' : ¬ v < 2 ^ 56 := by
        have : (2 : Nat) ^ (7 * 8) = 2 ^ 56 := by norm_num
        omega
      simp only [uintEncodeBytes, specVarintWire]
      rw [if_neg hsmall, if_neg hsmall, if_neg hmid, if_neg hmid', if_pos hv]

/-- Witness for C2 at `v = 300` (`encode = 81 2c`). -/
theorem C2_varint_wire_format_witness :
    uintEncodeBytes 300 = .ok (specVarintWire 300) :=
  C2_varint_wire_format.1 300 (by decide)

/-! ## Claim C5: short-buffer behaviour of the integer decoders

`Int.decode_from` slices `buffer[offset : offset + byte_size]` (resp.
`buffer[offset : offset+1]` for the varint tag) without checking that the
bytes exist; a short Python slice silently truncates, and
`int.from_bytes(b"")` is `0`, so decoding succeeds with zero-filled
values instead of failing. -/

/-- **C5 (refuted).** Fixed-width and varint decoders do **not** fail on
short buffers: `U32.decode_from(b"", 0)` returns `(0, 4)`,
`U16.decode_from(b"\x01")` returns `(1, 2)`, `I16.decode_from(b"")`
returns `(0, 2)`, and `Uint.decode_from(b"")` returns `(0, 1)`,
contrary to the claimed short-buffer error. -/
theorem C5_short_buffer_not_rejected :
    fixedUDecodeFrom 4 [] 0 = .ok (0, 4) ∧
    fixedUDecodeFrom 2 [1] 0 = .ok (1, 2) ∧
    fixedIDecodeFrom 2 [] 0 = .ok (0, 2) ∧
    uintDecodeFrom [] 0 = .ok (0, 1) := by
  refine ⟨rfl, rfl, ?_, rfl⟩
  simp [fixedIDecodeFrom, fromBytesLE]

/-! ## Bit-packing lemmas and Claim C9 -/

theorem testBit_cond (c : Bool) (x p : Nat) :
    (if c then x else 0 : Nat).testBit p = (c && x.testBit p) := by
  cases c <;> simp [Nat.zero_testBit]

theorem testBit_packedByte_msb (bits : List Bool) (k r : Nat) (hr : r < 8) :
    (packedByte bits .msb k).testBit (7 - r) = bits.getD (8 * k + r) false := by
  interval_cases r <;>
    (simp only [packedByte, Nat.testBit_or, testBit_cond]
     norm_num [Nat.testBit_to_div_mod, Nat.one_shiftLeft])

theorem testBit_packedByte_lsb (bits : List Bool) (k r : Nat) (hr : r < 8) :
    (packedByte bits .lsb k).testBit r = bits.getD (8 * k + r) false := by
  interval_cases r <;>
    (simp only [packedByte, Nat.testBit_or, testBit_cond]
     norm_num [Nat.testBit_to_div_mod, Nat.one_shiftLeft])

theorem packBits_getD (bits : List Bool) (order : BitOrder) (k : Nat) :
    (packBitsToBytes bits order).getD k 0 =
      if k < (bits.length + 7) / 8 then packedByte bits order k else 0 := by
  by_cases h : k < (bits.length + 7) / 8
  · simp [packBitsToBytes, List.getD_eq_getElem?_getD, List.getElem?_range, h]
  · rw [if_neg h]
    have hlen : (packBitsToBytes bits order).length ≤ k := by
      simp only [packBitsToBytes, List.length_map, List.length_range]
      omega
    rw [List.getD_eq_default _ _ hlen]

/-- **C9.** Bit packing follows the declared order: under `msb`, bit `i`
occupies position `7 − (i mod 8)` of byte `⌊i/8⌋`; under `lsb`, position
`i mod 8` of byte `⌊i/8⌋`; the packed length is `⌈n/8⌉` octets with
unused positions zero (the equations below hold for every index `i`,
out-of-range positions reading as `false` on both sides); and
`Bits[4, msb]([T,F,T,F]).encode() = a0` while the same bits under `lsb`
encode to `05`. -/
theorem C9_bit_packing :
    (∀ (bits : List Bool) (i : Nat),
      ((packBitsToBytes bits .msb).getD (i / 8) 0).testBit (7 - i % 8) = bits.getD i false ∧
      ((packBitsToBytes bits .lsb).getD (i / 8) 0).testBit (i % 8) = bits.getD i false) ∧
    (∀ (bits : List Bool) (order : BitOrder),
      (packBitsToBytes bits order).length = (bits.length + 7) / 8) ∧
    bitsEncodeBytes 4 4 .msb [true, false, true, false] = .ok [0xa0] ∧
    bitsEncodeBytes 4 4 .lsb [true, false, true, false] = .ok [0x05] := by
  refine ⟨?_, ?_, rfl, rfl⟩
  · intro bits i
    have hmod : i % 8 < 8 := Nat.mod_lt _ (by norm_num)
    have hdm : 8 * (i / 8) + i % 8 = i := Nat.div_add_mod i 8
    constructor
    · rw [packBits_getD]
      by_cases h : i / 8 < (bits.length + 7) / 8
      · rw [if_pos h, testBit_packedByte_msb bits (i / 8) (i % 8) hmod, hdm]
      · rw [if_neg h, Nat.zero_testBit]
        have hout : bits.length ≤ i := by omega
        rw [List.getD_eq_default _ _ hout]
    · rw [packBits_getD]
      by_cases h : i / 8 < (bits.length + 7) / 8
      · rw [if_pos h, testBit_packedByte_lsb bits (i / 8) (i % 8) hmod, hdm]
      · rw [if_neg h, Nat.zero_testBit]
        have hout : bits.length ≤ i := by omega
        rw [List.getD_eq_default _ _ hout]
  · intro bits order
    simp [packBitsToBytes]

/-! ## Claim C4: per-kind decode limits -/

/-- **C4 (refuted for Bits and variable Bytes).**  `Bits.decode_from` on
a buffer declaring `MAX_BITS_LENGTH + 1` bits fails with the modelled
short-buffer error of `_check_buffer_size` — there is no
`MAX_BITS_LENGTH` comparison in `bits.py`; variable
`Bytes.decode_from` accepts **any** declared length whose payload bytes
are present (no `MAX_BYTEARRAY_SIZE` comparison in `bytes.py`); while
`Dictionary.decode_from` does reject a count of
`MAX_DICTIONARY_SIZE + 1` with a limit error. -/
theorem C4_length_limit_checks :
    (∃ enc, uintEncodeBytes (MAX_BITS_LENGTH + 1) = .ok enc ∧
      bitsDecodeFrom 0 (2 ^ 64) .msb enc 0 = .error "Buffer too small") ∧
    (∀ n : Nat, n < 2 ^ 64 → ∀ payload : List Nat, payload.length = n →
      ∃ enc, uintEncodeBytes n = .ok enc ∧
        (bytesDecodeFrom none [] (enc ++ payload) 0).1 =
          .ok (payload, enc.length + n)) ∧
    (∃ enc, uintEncodeBytes (MAX_DICTIONARY_SIZE + 1) = .ok enc ∧
      dictDecodeFrom (fixedUDecodeFrom 1) (fixedUDecodeFrom 1) enc 0 =
        .error "Dictionary size exceeds maximum") := by
  refine ⟨?_, ?_, ?_⟩
  · obtain ⟨bs, henc, hdec, -⟩ :=
      uint_roundtrip (MAX_BITS_LENGTH + 1) (by norm_num [MAX_BITS_LENGTH]) []
    rw [List.append_nil] at hdec
    refine ⟨bs, henc, ?_⟩
    simp only [bitsDecodeFrom, hdec]
    norm_num [MAX_BITS_LENGTH, checkBufferSize]
  · intro n hn payload hlen
    obtain ⟨bs, henc, hdec, -⟩ := uint_roundtrip n hn payload
    refine ⟨bs, henc, ?_⟩
    have hdrop : (bs ++ payload).drop (0 + bs.length) = payload := by
      simp [List.drop_left]
    have htake : payload.take n = payload := by
      rw [← hlen]
      exact List.take_length payload
    simp only [bytesDecodeFrom, cacheLookup, hdec, hdrop, htake]
    rw [if_neg (by omega)]
    simp [hlen]
  · obtain ⟨bs, henc, hdec, -⟩ :=
      uint_roundtrip (MAX_DICTIONARY_SIZE + 1) (by norm_num [MAX_DICTIONARY_SIZE]) []
    rw [List.append_nil] at hdec
    refine ⟨bs, henc, ?_⟩
    simp only [dictDecodeFrom, hdec]
    norm_num [MAX_DICTIONARY_SIZE]

/-- Witness for C4's variable-`Bytes` part at the limit:
a declared length of `MAX_BYTEARRAY_SIZE + 1` octets decodes
successfully (no limit-exceeded failure). -/
theorem C4_length_limit_checks_witness :
    ∃ enc, uintEncodeBytes (MAX_BYTEARRAY_SIZE + 1) = .ok enc ∧
      (bytesDecodeFrom none [] (enc ++ List.replicate (MAX_BYTEARRAY_SIZE + 1) 0) 0).1 =
        .ok (List.replicate (MAX_BYTEARRAY_SIZE + 1) 0,
          enc.length + (MAX_BYTEARRAY_SIZE + 1)) :=
  C4_length_limit_checks.2.1 (MAX_BYTEARRAY_SIZE + 1) (by decide)
    (List.replicate (MAX_BYTEARRAY_SIZE + 1) 0) (List.length_replicate _ _)

/-! ## Claim C10: fixed-length `Bits.from_json` truncates excess bits -/

theorem length_bytesToBits (order : BitOrder) (bs : List Nat) :
    (bytesToBits order bs).length = 8 * bs.length := by
  induction bs with
  | nil => rfl
  | cons b rest ih =>
    have h8 : (byteToBits order b).length = 8 := by cases order <;> rfl
    simp only [bytesToBits, List.map_cons, List.flatten_cons, List.length_append, h8,
      List.length_cons] at *
    omega

/-- **C10.** For a fixed-length `Bits[L, order]` with `L > 0`,
`from_json` accepts a hex string unpacking to more than `L` bits and
silently keeps only the first `L` bits: no error is raised and the
constructed value is exactly the truncated `L`-bit prefix. -/
theorem C10_bits_from_json_truncates (ln : Nat) (order : BitOrder) (s : String)
    (bs : List Nat) (hpos : 0 < ln) (hhex : bytesFromJsonHex s = .ok bs)
    (hlt : ln < 8 * bs.length) :
    bitsFromJson ln ln order s = .ok ((bytesToBits order bs).take ln) ∧
    ((bytesToBits order bs).take ln).length = ln := by
  have hlen : (bytesToBits order bs).length = 8 * bs.length := length_bytesToBits order bs
  have htlen : ((bytesToBits order bs).take ln).length = ln := by
    rw [List.length_take]
    omega
  refine ⟨?_, htlen⟩
  simp only [bitsFromJson, hhex]
  rw [if_pos (⟨trivial, hpos⟩ : True ∧ 0 < ln)]
  rw [if_pos (by rw [htlen]; exact ⟨le_refl _, le_refl _⟩)]

/-- Witness for C10: `Bits[4, msb].from_json("a0")` keeps the first 4 of
8 unpacked bits. -/
theorem C10_bits_from_json_truncates_witness :
    bitsFromJson 4 4 .msb "a0" = .ok ((bytesToBits .msb [0xa0]).take 4) ∧
    ((bytesToBits .msb [0xa0]).take 4).length = 4 :=
  C10_bits_from_json_truncates 4 .msb "a0" [0xa0] (by decide) rfl (by decide)

/-! ## Claim C3: dictionary wire ordering -/

theorem dictLookup_mem (entries : List (Nat × Nat)) (k : Nat)
    (h : k ∈ entries.map Prod.fst) : ∃ v, dictLookup entries k = some v := by
  induction entries with
  | nil => simp at h
  | cons kv rest ih =>
    by_cases he : kv.1 = k
    · exact ⟨kv.2, by simp [dictLookup, he]⟩
    · have h' : k ∈ rest.map Prod.fst := by
        rcases List.mem_cons.1 h with h0 | h0
        · exact absurd h0.symm he
        · exact h0
      obtain ⟨v, hv⟩ := ih h'
      exact ⟨v, by simp [dictLookup, he, hv]⟩

theorem collectItems_of_mem (entries : List (Nat × Nat)) (ks : List Nat)
    (h : ∀ k ∈ ks, k ∈ entries.map Prod.fst) :
    ∃ items, collectItems entries ks = some items ∧ items.map Prod.fst = ks := by
  induction ks with
  | nil => exact ⟨[], rfl, rfl⟩
  | cons k ks ih =>
    obtain ⟨v, hv⟩ := dictLookup_mem entries k (h k (by simp))
    obtain ⟨items, hc, hm⟩ := ih (fun x hx => h x (by simp [hx]))
    exact ⟨(k, v) :: items, by simp [collectItems, hv, hc], by simp [hm]⟩

theorem sorted_nodup_chain_lt (l : List Nat) (hs : l.Sorted (· ≤ ·)) (hn : l.Nodup) :
    l.Chain' (· < ·) := by
  rw [List.chain'_iff_pairwise]
  exact (hs.and hn).imp (fun h => lt_of_le_of_ne h.1 h.2)

/-- **C3 (amended).** `Dictionary.encode_into` emits its entries in
strictly ascending **natural** key order (the code sorts with
`sorted(self.keys())`; the encoded-bytes fallback is reached only when
natural comparison raises `TypeError`).  Shown here for `U16` keys and
`U8` values: the wire form is the varint count followed by
`E(k) ∥ E(v)` for the naturally-sorted items. -/
theorem C3_dictionary_encode_order (entries : List (Nat × Nat))
    (hcnt : entries.length < 2 ^ 64) (hnd : (entries.map Prod.fst).Nodup) :
    ∃ (pre : List Nat) (items : List (Nat × Nat)) (d' : DictState),
      uintEncodeBytes entries.length = .ok pre ∧
      dictEncodeBytes (fixedUEncodeBytes 2) (fixedUEncodeBytes 1) (dictOfEntries entries) =
        .ok (pre ++
          (items.map (fun kv => fixedUEncodeBytes 2 kv.1 ++ fixedUEncodeBytes 1 kv.2)).flatten,
          d') ∧
      items.map Prod.fst = (entries.map Prod.fst).insertionSort (· ≤ ·) ∧
      (items.map Prod.fst).Chain' (· < ·) := by
  obtain ⟨pre, hpre, -, -⟩ := uint_roundtrip entries.length hcnt []
  have hperm := List.perm_insertionSort (· ≤ ·) (entries.map Prod.fst)
  have hmem : ∀ k ∈ (entries.map Prod.fst).insertionSort (· ≤ ·), k ∈ entries.map Prod.fst :=
    fun k hk => hperm.mem_iff.1 hk
  obtain ⟨items, hcoll, hkeys⟩ :=
    collectItems_of_mem entries ((entries.map Prod.fst).insertionSort (· ≤ ·)) hmem
  refine ⟨pre, items,
    ⟨entries, some ((entries.map Prod.fst).insertionSort (· ≤ ·)), false⟩,
    hpre, ?_, hkeys, ?_⟩
  · simp [dictEncodeBytes, dictOfEntries, dictGetSortedItems, hpre, hcoll]
  · rw [hkeys]
    exact sorted_nodup_chain_lt _ (List.sorted_insertionSort _ _) (hperm.nodup_iff.2 hnd)

/-- Witness for C3's amended statement at the two-entry `U16` dictionary
`{1 ↦ 0, 256 ↦ 0}`. -/
theorem C3_dictionary_encode_order_witness :
    ∃ (pre : List Nat) (items : List (Nat × Nat)) (d' : DictState),
      uintEncodeBytes ([((1 : Nat), (0 : Nat)), (256, 0)].length) = .ok pre ∧
      dictEncodeBytes (fixedUEncodeBytes 2) (fixedUEncodeBytes 1)
          (dictOfEntries [(1, 0), (256, 0)]) =
        .ok (pre ++
          (items.map (fun kv => fixedUEncodeBytes 2 kv.1 ++ fixedUEncodeBytes 1 kv.2)).flatten,
          d') ∧
      items.map Prod.fst = ([((1 : Nat), (0 : Nat)), (256, 0)].map Prod.fst).insertionSort (· ≤ ·) ∧
      (items.map Prod.fst).Chain' (· < ·) :=
  C3_dictionary_encode_order [(1, 0), (256, 0)] (by decide) (by decide)

/-- **C3 (counterexample to the claim as stated).**  With `U16` keys
`{1, 256}`, the bytes actually emitted list `E(1) = 01 00` before
`E(256) = 00 01`, which is *not* ascending under encoded-bytes
(lexicographic) comparison — `E(256) < E(1)` lexicographically — so the
natural-order wire form does not match the encoded-bytes ordering for
the supplied multi-byte little-endian key kinds. -/
theorem C3_counterexample_u16 :
    (∃ d', dictEncodeBytes (fixedUEncodeBytes 2) (fixedUEncodeBytes 1)
        (dictOfEntries [(1, 0), (256, 0)]) =
      .ok ([2, 1, 0, 0, 0, 1, 0], d')) ∧
    fixedUEncodeBytes 2 1 = [1, 0] ∧
    fixedUEncodeBytes 2 256 = [0, 1] ∧
    bytesLexLt [1, 0] [0, 1] = false ∧
    bytesLexLt [0, 1] [1, 0] = true :=
  ⟨⟨⟨[(1, 0), (256, 0)], some [1, 256], false⟩, rfl⟩, rfl, rfl, rfl, rfl⟩

/-! ## Claim C7: decode enforces strictly ascending keys -/

theorem chainLt_le_getLast :
    ∀ (l : List Nat) (p : Nat), l.Chain' (· < ·) → l.getLast? = some p →
      ∀ x ∈ l, x ≤ p := by
  intro l
  induction l with
  | nil => intro p _ hp; simp at hp
  | cons a l ih =>
    intro p hc hp x hx
    cases l with
    | nil =>
      simp only [List.getLast?_singleton, Option.some.injEq] at hp
      rcases List.mem_singleton.1 hx with rfl
      omega
    | cons b m =>
      rw [List.getLast?_cons_cons] at hp
      have hc' : (b :: m).Chain' (· < ·) := hc.tail
      have hab : a < b := (List.chain'_cons.1 hc).1
      rcases List.mem_cons.1 hx with rfl | hx'
      · have hble := ih p hc' hp b (by simp)
        omega
      · exact ih p hc' hp x hx'

theorem assocSet_not_mem (entries : List (Nat × Nat)) (k v : Nat)
    (h : k ∉ entries.map Prod.fst) : assocSet entries k v = entries ++ [(k, v)] := by
  induction entries with
  | nil => rfl
  | cons kv rest ih =>
    have hne : kv.1 ≠ k := by
      intro he
      exact h (by simp [he])
    simp only [assocSet, if_neg hne, List.cons_append, List.cons.injEq, true_and]
    exact ih (fun hm => h (by simp [hm]))

theorem dictDecodeLoop_chain (decK decV : List Nat → Nat → Except String (Nat × Nat))
    (buffer : List Nat) :
    ∀ (n cur : Nat) (prev : Option Nat) (acc entries : List (Nat × Nat)) (sz : Nat),
      (acc.map Prod.fst).Chain' (· < ·) →
      (acc.map Prod.fst).getLast? = prev →
      dictDecodeLoop decK decV buffer n cur prev acc = .ok (entries, sz) →
      (entries.map Prod.fst).Chain' (· < ·) := by
  intro n
  induction n with
  | zero =>
    intro cur prev acc entries sz hchain hlast hok
    simp only [dictDecodeLoop, Except.ok.injEq, Prod.mk.injEq] at hok
    rw [← hok.1]
    exact hchain
  | succ n ih =>
    intro cur prev acc entries sz hchain hlast hok
    rcases hdk : decK buffer cur with e | ⟨k, szK⟩
    · simp only [dictDecodeLoop, hdk] at hok
      exact Except.noConfusion hok
    simp only [dictDecodeLoop, hdk] at hok
    by_cases hv : keyOrderViolated prev k
    · rw [if_pos hv] at hok
      exact Except.noConfusion hok
    · rw [if_neg hv] at hok
      rcases hdv : decV buffer (cur + szK) with e | ⟨v, szV⟩
      · simp only [hdv] at hok
        exact Except.noConfusion hok
      simp only [hdv] at hok
      cases prev with
      | none =>
        have hacc : acc.map Prod.fst = [] := List.getLast?_eq_none_iff.1 hlast
        have hacc' : acc = [] := List.map_eq_nil_iff.1 hacc
        subst hacc'
        have h1 : ((assocSet [] k v).map Prod.fst).Chain' (· < ·) := by
          show ([(k, v)].map Prod.fst).Chain' (· < ·)
          simp
        have h2 : ((assocSet [] k v).map Prod.fst).getLast? = some k := by
          show ([(k, v)].map Prod.fst).getLast? = some k
          simp
        exact ih _ _ _ _ _ h1 h2 hok
      | some p =>
        have hv' : ¬ k ≤ p := fun hle => hv (decide_eq_true hle)
        have hkp : p < k := by omega
        have hle := chainLt_le_getLast (acc.map Prod.fst) p hchain hlast
        have hnm : k ∉ acc.map Prod.fst := fun hm => absurd (hle k hm) (by omega)
        have hset : assocSet acc k v = acc ++ [(k, v)] := assocSet_not_mem acc k v hnm
        refine ih _ _ _ _ _ ?_ ?_ hok
        · rw [hset, List.map_append]
          rw [List.chain'_append]
          refine ⟨hchain, by simp, ?_⟩
          intro x hx y hy
          simp only [List.map_cons, List.map_nil, List.head?_cons, Option.mem_def,
            Option.some.injEq] at hy
          rw [hlast] at hx
          simp only [Option.mem_def, Option.some.injEq] at hx
          omega
        · rw [hset, List.map_append]
          simp [List.getLast?_concat]

/-- **C7.** `Dictionary.decode_from` (here at `U8` keys and values)
fails with the invalid-key-order error whenever successively decoded
keys are not strictly ascending — shown on an out-of-order stream and an
equal-keys stream — and every successfully decoded dictionary has
strictly ascending, hence duplicate-free, keys. -/
theorem C7_dictionary_decode_key_order :
    (∀ (buffer : List Nat) (offset : Nat) (entries : List (Nat × Nat)) (sz : Nat),
      dictDecodeFrom (fixedUDecodeFrom 1) (fixedUDecodeFrom 1) buffer offset =
        .ok (entries, sz) →
      (entries.map Prod.fst).Chain' (· < ·) ∧ (entries.map Prod.fst).Nodup) ∧
    dictDecodeFrom (fixedUDecodeFrom 1) (fixedUDecodeFrom 1) [2, 2, 9, 1, 9] 0 =
      .error "Dictionary keys must be in strictly ascending order per JAM spec" ∧
    dictDecodeFrom (fixedUDecodeFrom 1) (fixedUDecodeFrom 1) [2, 1, 9, 1, 8] 0 =
      .error "Dictionary keys must be in strictly ascending order per JAM spec" := by
  refine ⟨?_, rfl, rfl⟩
  intro buffer offset entries sz hok
  have hchain : (entries.map Prod.fst).Chain' (· < ·) := by
    rcases hu : uintDecodeFrom buffer offset with e | ⟨n, s⟩
    · simp only [dictDecodeFrom, hu] at hok
      exact Except.noConfusion hok
    simp only [dictDecodeFrom, hu] at hok
    by_cases hlim : n > MAX_DICTIONARY_SIZE
    · rw [if_pos hlim] at hok
      exact Except.noConfusion hok
    · rw [if_neg hlim] at hok
      rcases hl : dictDecodeLoop (fixedUDecodeFrom 1) (fixedUDecodeFrom 1)
          buffer n (offset + s) none [] with e | ⟨entries0, cur⟩
      · simp only [hl] at hok
        exact Except.noConfusion hok
      simp only [hl, Except.ok.injEq, Prod.mk.injEq] at hok
      obtain ⟨rfl, -⟩ := hok
      exact dictDecodeLoop_chain (fixedUDecodeFrom 1) (fixedUDecodeFrom 1)
        buffer n (offset + s) none [] _ cur (by simp) (by simp) hl
  refine ⟨hchain, ?_⟩
  have hpw := List.chain'_iff_pairwise.1 hchain
  exact hpw.imp (fun h => Nat.ne_of_lt h)

/-- Witness for C7's universal part at the well-formed stream
`01 05 09` (one entry, key 5, value 9). -/
theorem C7_dictionary_decode_key_order_witness :
    (([((5 : Nat), (9 : Nat))].map Prod.fst).Chain' (· < ·)) ∧
    (([((5 : Nat), (9 : Nat))].map Prod.fst).Nodup) :=
  C7_dictionary_decode_key_order.1 [1, 5, 9] 0 [(5, 9)] 3 rfl

/-! ## Claim C6: observability of the decode/sort caches -/

/-- **C6 (refuted).**  (a) `Bytes.decode_from`'s global cache key covers
only the first 64 octets after the offset, so decoding `buf2` right
after an earlier decode of a different buffer `buf1` sharing that window
returns `buf1`'s 65-octet payload instead of `buf2`'s — the result is
**not** determined by the class, buffer and offset alone.
(b) `Dictionary` does not override `dict.__delitem__`, so after
`encode`; `del d[1]`; `encode`, the stale `_sorted_keys_cache` still
lists the deleted key and the second encode raises `KeyError` — while a
fresh dictionary holding the same remaining entries encodes fine. -/
theorem C6_caching_observable :
    ((bytesDecodeFrom none [] (65 :: List.replicate 65 0) 0).1 =
        .ok (List.replicate 65 0, 66) ∧
      (bytesDecodeFrom none (bytesDecodeFrom none [] (65 :: List.replicate 65 0) 0).2
          (65 :: (List.replicate 64 0 ++ [1])) 0).1 =
        .ok (List.replicate 65 0, 66) ∧
      (bytesDecodeFrom none [] (65 :: (List.replicate 64 0 ++ [1])) 0).1 =
        .ok (List.replicate 64 0 ++ [1], 66) ∧
      List.replicate 65 (0 : Nat) ≠ List.replicate 64 0 ++ [1]) ∧
    (dictEncodeBytes (fixedUEncodeBytes 1) (fixedUEncodeBytes 1)
        (dictSetItem (dictSetItem (dictOfEntries []) 1 10) 2 20) =
      .ok ([2, 1, 10, 2, 20], ⟨[(1, 10), (2, 20)], some [1, 2], false⟩) ∧
      (dictDelItem ⟨[(1, 10), (2, 20)], some [1, 2], false⟩ 1).entries = [(2, 20)] ∧
      dictEncodeBytes (fixedUEncodeBytes 1) (fixedUEncodeBytes 1)
        (dictDelItem ⟨[(1, 10), (2, 20)], some [1, 2], false⟩ 1) = .error "KeyError" ∧
      dictEncodeBytes (fixedUEncodeBytes 1) (fixedUEncodeBytes 1)
        (dictOfEntries [(2, 20)]) =
        .ok ([1, 2, 20], ⟨[(2, 20)], some [2], false⟩)) := by
  refine ⟨⟨rfl, rfl, rfl, by decide⟩, rfl, rfl, rfl, rfl⟩

/-! ## Claim C8: record `from_json` and missing fields -/

/-- **C8 (counterexample to the claim as stated).**  A record with one
`String` field, no alias and no default, applied to an **empty** JSON
object, does not fail with a missing-field error: `from_json` silently
constructs the field from Python `str(None)`, yielding `String("None")`. -/
theorem C8_counterexample_missing_string_field :
    structFromJson [⟨"note", none, none, .stringTy⟩] [] =
      .ok [("note", .svl "None")] := rfl

/-- **C8 (amended).** `from_json` of a decorated record (i) depends only
on the JSON values at the declared alias-or-name keys (unknown keys are
ignored); (ii) substitutes the declared default when the key is absent
(or null) and a default exists; and with no default it applies the field
type's `from_json` to Python `None`: (iii) an integer field then fails
with a `TypeError` — not a dedicated missing-field error — while (iv) a
text field silently becomes `String("None")`. -/
theorem C8_from_json_missing_fields :
    (∀ (flds : List FieldSpec) (d1 d2 : List (String × JValue)),
      (∀ f ∈ flds, jsonGet d1 (fieldKey f) = jsonGet d2 (fieldKey f)) →
      structFromJson flds d1 = structFromJson flds d2) ∧
    (∀ (f : FieldSpec) (rest : List FieldSpec) (data : List (String × JValue)) (d : FVal),
      jsonGet data (fieldKey f) = none → f.default? = some d →
      structFromJson (f :: rest) data =
        (structFromJson rest data).map (fun r => (f.name, d) :: r)) ∧
    (∀ (nm : String) (al : Option String) (rest : List FieldSpec)
      (data : List (String × JValue)),
      jsonGet data (al.getD nm) = none →
      structFromJson (⟨nm, al, none, .uintTy⟩ :: rest) data =
        .error "TypeError: int() argument cannot be NoneType") ∧
    (∀ (nm : String) (al : Option String) (rest : List FieldSpec)
      (data : List (String × JValue)),
      jsonGet data (al.getD nm) = none →
      structFromJson (⟨nm, al, none, .stringTy⟩ :: rest) data =
        (structFromJson rest data).map (fun r => (nm, .svl "None") :: r)) := by
  refine ⟨?_, ?_, ?_, ?_⟩
  · intro flds
    induction flds with
    | nil => intro d1 d2 h; rfl
    | cons f rest ih =>
      intro d1 d2 h
      have hv : jsonGet d1 (fieldKey f) = jsonGet d2 (fieldKey f) := h f (by simp)
      have hrest : structFromJson rest d1 = structFromJson rest d2 :=
        ih d1 d2 (fun g hg => h g (by simp [hg]))
      simp only [structFromJson, hv, hrest]
  · intro f rest data d hget hdef
    rcases hr : structFromJson rest data with e | r <;>
      simp [structFromJson, hget, hdef, hr, Except.map]
  · intro nm al rest data hget
    simp [structFromJson, fieldKey, hget, ftypeFromJson, uintFromJson, pyInt]
  · intro nm al rest data hget
    rcases hr : structFromJson rest data with e | r <;>
      simp [structFromJson, fieldKey, hget, hr, ftypeFromJson, stringFromJson, pyStr,
        Except.map]

/-- Witness for C8's amended statement: unknown key ignored plus
default substitution plus the two no-default behaviours, all at
concrete inputs. -/
theorem C8_from_json_missing_fields_witness :
    (structFromJson [⟨"age", none, some (.uvl 7), .uintTy⟩] [("junk", .num 3)] =
      structFromJson [⟨"age", none, some (.uvl 7), .uintTy⟩] []) ∧
    (structFromJson [⟨"age", none, some (.uvl 7), .uintTy⟩] [] =
      (structFromJson ([] : List FieldSpec) []).map (fun r => ("age", FVal.uvl 7) :: r)) ∧
    (structFromJson [⟨"age", none, none, .uintTy⟩] [("junk", .num 3)] =
      .error "TypeError: int() argument cannot be NoneType") ∧
    (structFromJson [⟨"label", none, none, .stringTy⟩] [] =
      (structFromJson ([] : List FieldSpec) []).map (fun r => ("label", FVal.svl "None") :: r)) :=
  ⟨C8_from_json_missing_fields.1 [⟨"age", none, some (.uvl 7), .uintTy⟩]
      [("junk", .num 3)] [] (by intro f hf; rw [List.mem_singleton.1 hf]; rfl),
   C8_from_json_missing_fields.2.1 ⟨"age", none, some (.uvl 7), .uintTy⟩ [] [] (.uvl 7)
      rfl rfl,
   C8_from_json_missing_fields.2.2.1 "age" none [] [("junk", .num 3)] rfl,
   C8_from_json_missing_fields.2.2.2 "label" none [] [] rfl⟩

end Tsrkit
